import Mathlib

set_option maxRecDepth 65536

/-!
Shallow embedding of the house-visit dedupe pipeline (`src/app.py`).

A pandas `DataFrame` is modelled as a `Table`: an ordered list of column
names together with rows, each row being a list of `Cell`s aligned with the
column list.  Cells carry the value shapes the pipeline actually meets:
text, a calendar date, the null-date marker `NaT`, the missing marker `NaN`,
and a natural number (the `cumcount` rank column).  The pandas string and
date coercions used by the app (`astype(str)`, regex whitespace collapse,
trailing-".0" strip, `str.strip()`, `to_datetime(dayfirst=True,
errors="coerce")`, `str.contains(..., case=False)`) are embedded as
executable functions on `List Char` / `String`.
-/

/-- Whitespace in the sense of the regex `\s` used by
`str.replace(r"\s+", " ")` and of python's `str.strip()`. -/
def isWs (c : Char) : Bool :=
  c = ' ' || c = '\t' || c = '\n' || c = '\r' || c = '\x0b' || c = '\x0c'

/-- Collapse every run of whitespace characters to a single space
(`.str.replace(r"\s+", " ", regex=True)`).  The flag records whether the
previous character was part of a whitespace run. -/
def collapseWsAux : List Char → Bool → List Char
  | [], _ => []
  | c :: cs, prev =>
    if isWs c then
      if prev then collapseWsAux cs true else ' ' :: collapseWsAux cs true
    else c :: collapseWsAux cs false

def collapseWs (l : List Char) : List Char := collapseWsAux l false

/-- `.str.replace(r"\.0$", "", regex=True)`: remove one trailing literal
`.0`. -/
def stripDotZero (l : List Char) : List Char :=
  if l.reverse.take 2 = ['0', '.'] then (l.reverse.drop 2).reverse else l

/-- Drop leading whitespace. -/
def dropWs (l : List Char) : List Char := l.dropWhile isWs

/-- Drop trailing whitespace. -/
def pstripR : List Char → List Char
  | [] => []
  | c :: cs =>
    match pstripR cs with
    | [] => if isWs c then [] else [c]
    | x :: xs => c :: x :: xs

/-- Python `str.strip()`: drop leading and trailing whitespace. -/
def pstrip (s : String) : String := ⟨pstripR (dropWs s.data)⟩

/-- The string normalization applied to every string-typed schema column:
collapse whitespace runs, strip a trailing ".0", then strip surrounding
whitespace (`apply_schema_types`, string branch). -/
def normStr (s : String) : String := ⟨pstripR (dropWs (stripDotZero (collapseWs s.data)))⟩

/-- `needle` occurs as a contiguous substring of `hay`. -/
def isSubstrA (needle : List Char) : List Char → Bool
  | [] => needle.isEmpty
  | c :: cs => needle.isPrefixOf (c :: cs) || isSubstrA needle cs

/-- Case-insensitive containment of the footer marker, as in
`.str.contains("Applied filters", case=False)`. -/
def containsAppliedFilters (s : String) : Bool :=
  isSubstrA "applied filters".data (s.data.map Char.toLower)

/-- A calendar date (`datetime.date`). -/
structure HDate where
  year : Nat
  month : Nat
  day : Nat
deriving DecidableEq, Repr

def isLeap (y : Nat) : Bool := (y % 4 = 0 && ¬ y % 100 = 0) || y % 400 = 0

def daysInMonth (y m : Nat) : Nat :=
  if m = 2 then (if isLeap y then 29 else 28)
  else if m = 4 || m = 6 || m = 9 || m = 11 then 30
  else 31

def validDMY (d m y : Nat) : Bool :=
  1 ≤ m && m ≤ 12 && 1 ≤ d && d ≤ daysInMonth y m

/-- Split on the date separators `/` and `-`. -/
def splitSep : List Char → List (List Char)
  | [] => [[]]
  | c :: cs =>
    let r := splitSep cs
    if c = '/' || c = '-' then [] :: r
    else
      match r with
      | [] => [[c]]
      | g :: gs => (c :: g) :: gs

def digitsToNat (l : List Char) : Option Nat :=
  if ¬ l.isEmpty && l.all Char.isDigit then
    some (l.foldl (fun n c => n * 10 + (c.toNat - 48)) 0)
  else none

/-- Model of `pd.to_datetime(s, dayfirst=True, errors="coerce")` on the
numeric `a/b/c` (or `a-b-c`) forms the data uses: a leading four-or-more
digit field is taken as the year, otherwise the first field is preferred as
the day (`dayfirst=True`), falling back to month-first when day-first is
not a valid calendar date.  Anything else fails to parse. -/
def parseDateDayFirst (s : String) : Option HDate :=
  match (splitSep s.data).mapM digitsToNat with
  | some [a, b, c] =>
    if 1000 ≤ a then
      if validDMY c b a then some ⟨a, b, c⟩ else none
    else if validDMY a b c then some ⟨c, b, a⟩
    else if validDMY b a c then some ⟨c, a, b⟩
    else none
  | _ => none

/-- A cell of the table. `na` is pandas' missing marker `NaN`; `nullDate`
is the null date `NaT` produced by a failed date coercion. -/
inductive Cell where
  | str (s : String)
  | date (d : HDate)
  | nullDate
  | na
  | num (n : Nat)
deriving DecidableEq, Repr

def pad2 (n : Nat) : String := if n < 10 then "0" ++ Nat.repr n else Nat.repr n

/-- `str(datetime.date(y, m, d))` is ISO `YYYY-MM-DD`. -/
def dateToString (d : HDate) : String :=
  Nat.repr d.year ++ "-" ++ pad2 d.month ++ "-" ++ pad2 d.day

/-- `astype(str)` on a single cell: `NaN` renders as `"nan"`, `NaT` as
`"NaT"`. -/
def cellToStr : Cell → String
  | .str s => s
  | .date d => dateToString d
  | .nullDate => "NaT"
  | .na => "nan"
  | .num n => Nat.repr n

/-- Missing in the sense of `dropna`: `NaN` and `NaT`. -/
def Cell.isNA : Cell → Bool
  | .na => true
  | .nullDate => true
  | _ => false

/-- One cell of a string-typed column after
`astype(str) → collapse → strip ".0" → strip`. -/
def normStrCell (c : Cell) : Cell := .str (normStr (cellToStr c))

/-- One cell of a date-typed column after
`pd.to_datetime(..., errors="coerce", dayfirst=True).dt.date`: dates pass
through, missing and unparseable values coerce to `NaT`, never an error. -/
def normDateCell : Cell → Cell
  | .str s =>
    match parseDateDayFirst s with
    | some d => .date d
    | none => .nullDate
  | .date d => .date d
  | .nullDate => .nullDate
  | .na => .nullDate
  | .num _ => .nullDate

def normCellFor (dtype : String) (c : Cell) : Cell :=
  if dtype = "date" then normDateCell c else normStrCell c

/-- The fixed column → declared-type mapping (`SCHEMA` in `src/app.py`). -/
def SCHEMA : List (String × String) :=
  [("Funder", "string"), ("COUNTRY", "string"), ("REGION", "string"),
   ("STATE", "string"), ("DISTRICT", "string"),
   ("PROGRAM LAUNCH NAME", "string"), ("Sub Type", "string"),
   ("FunderID", "string"), ("ProjectID", "string"), ("ProjectType", "string"),
   ("HOUSE VISIT TYPE", "string"), ("CHILD ID", "string"),
   ("Child Name", "string"), ("PARENT NAME", "string"),
   ("HOUSE VISIT DATE", "date"), ("GROUP ID", "string"),
   ("REMARKS", "string"), ("HouseVisitID", "string"),
   ("TMO Name", "string"), ("YM Name", "string")]

/-- A pandas `DataFrame`: ordered column names, and rows whose cell lists
are aligned with the column list. -/
structure Table where
  cols : List String
  rows : List (List Cell)
deriving DecidableEq, Repr

/-- Every row has exactly one cell per column (always true of a real
`DataFrame`). -/
def Table.WF (t : Table) : Prop := ∀ r ∈ t.rows, r.length = t.cols.length

instance (t : Table) : Decidable t.WF := by
  unfold Table.WF; infer_instance

/-- Index of a column label (`df.columns.get_loc`-style lookup; length of
the list when absent). -/
def idxOf (l : List String) (c : String) : Nat := l.findIdx (fun x => x = c)

/-- Apply `f` to the entry at index `i`, if any. -/
def modAt (f : Cell → Cell) : Nat → List Cell → List Cell
  | _, [] => []
  | 0, c :: cs => f c :: cs
  | n + 1, c :: cs => c :: modAt f n cs

/-- `df[col] = df[col].<transform>` for a present column. -/
def Table.modifyCol (t : Table) (c : String) (f : Cell → Cell) : Table :=
  ⟨t.cols, t.rows.map (modAt f (idxOf t.cols c))⟩

/-- `df[col] = ""` for an absent column: append a new column, the same
scalar in every row. -/
def Table.addCol (t : Table) (c : String) (v : Cell) : Table :=
  ⟨t.cols ++ [c], t.rows.map (fun r => r ++ [v])⟩

/-- `df[col] = series`: overwrite the column when present, append it
otherwise. -/
def Table.setCol (t : Table) (c : String) (vs : List Cell) : Table :=
  if c ∈ t.cols then
    ⟨t.cols, (t.rows.zip vs).map (fun p => p.1.set (idxOf t.cols c) p.2)⟩
  else
    ⟨t.cols ++ [c], (t.rows.zip vs).map (fun p => p.1 ++ [p.2])⟩

/-- `remove_footer_and_blank_rows`: drop rows whose cells are all missing
(`dropna(how="all")`), then drop rows where some cell's string form
contains "Applied filters" case-insensitively; surviving rows keep their
relative order (`reset_index(drop=True)` renumbers positionally). -/
def remove_footer_and_blank_rows (t : Table) : Table :=
  ⟨t.cols,
   (t.rows.filter (fun r => ¬ r.all Cell.isNA)).filter
     (fun r => ¬ r.any (fun c => containsAppliedFilters (cellToStr c)))⟩

/-- One iteration of the `for col, dtype in SCHEMA.items()` loop of
`apply_schema_types`. -/
def stepTab (t : Table) (e : String × String) : Table :=
  if e.1 ∈ t.cols then t.modifyCol e.1 (normCellFor e.2)
  else t.addCol e.1 (Cell.str "")

/-- `apply_schema_types`: trim the column names, then coerce or synthesize
every declared column. -/
def apply_schema_types (t : Table) : Table :=
  SCHEMA.foldl stepTab ⟨t.cols.map pstrip, t.rows⟩

/-- The eight key columns, in the exact order of the `df["COMBINED"]`
expression. -/
def KEYCOLS : List String :=
  ["HOUSE VISIT TYPE", "CHILD ID", "HOUSE VISIT DATE", "GROUP ID",
   "REMARKS", "HouseVisitID", "TMO Name", "YM Name"]

/-- Read a cell by column label (missing label or short row reads as
`NaN`). -/
def getCellD (cols : List String) (r : List Cell) (c : String) : Cell :=
  r.getD (idxOf cols c) Cell.na

/-- The `COMBINED` expression: the eight key columns joined with `" | "`,
the date column through `astype(str)`. -/
def buildKey (cols : List String) (r : List Cell) : String :=
  cellToStr (getCellD cols r "HOUSE VISIT TYPE") ++ " | " ++
  cellToStr (getCellD cols r "CHILD ID") ++ " | " ++
  cellToStr (getCellD cols r "HOUSE VISIT DATE") ++ " | " ++
  cellToStr (getCellD cols r "GROUP ID") ++ " | " ++
  cellToStr (getCellD cols r "REMARKS") ++ " | " ++
  cellToStr (getCellD cols r "HouseVisitID") ++ " | " ++
  cellToStr (getCellD cols r "TMO Name") ++ " | " ++
  cellToStr (getCellD cols r "YM Name")

/-- `groupby("COMBINED").cumcount()`: the rank of each row is the number of
earlier rows carrying the same key; `seen` is the list of keys already
read. -/
def ranksAux (seen : List String) : List String → List Nat
  | [] => []
  | k :: ks => seen.count k :: ranksAux (seen ++ [k]) ks

def ranks (ks : List String) : List Nat := ranksAux [] ks

/-- The statistics record returned by one run. -/
structure Stats where
  rows_before : Nat
  rows_after : Nat
  removed : Nat
deriving DecidableEq, Repr

/-- The table after sanitization and schema coercion. -/
def normTab (t : Table) : Table :=
  apply_schema_types (remove_footer_and_blank_rows t)

/-- The `COMBINED` key of every row, in row order. -/
def keysOf (t : Table) : List String :=
  (normTab t).rows.map (buildKey (normTab t).cols)

/-- The table with the `COMBINED` and `duplicat` bookkeeping columns
assigned. -/
def withKeyCols (t : Table) : Table :=
  ((normTab t).setCol "COMBINED" ((keysOf t).map Cell.str)).setCol
    "duplicat" ((ranks (keysOf t)).map Cell.num)

/-- `df[df["duplicat"] == 0]`: rows whose rank is zero, in order. -/
def dedupedT (t : Table) : Table :=
  ⟨(withKeyCols t).cols,
   (((withKeyCols t).rows.zip (ranks (keysOf t))).filter
       (fun p => p.2 = 0)).map Prod.fst⟩

/-- `df[df["duplicat"] > 0]`: rows whose rank is positive, in order. -/
def removedT (t : Table) : Table :=
  ⟨(withKeyCols t).cols,
   (((withKeyCols t).rows.zip (ranks (keysOf t))).filter
       (fun p => 0 < p.2)).map Prod.fst⟩

def statsOf (t : Table) : Stats :=
  ⟨(withKeyCols t).rows.length, (dedupedT t).rows.length,
   (removedT t).rows.length⟩

/-- `process_housevisit_dedupe`, up to the in-memory Excel serialization:
the deduped partition, the removed partition, and the statistics. -/
def process_housevisit_dedupe (t : Table) : Table × Table × Stats :=
  (dedupedT t, removedT t, statsOf t)

/-- The `COMBINED` column as recorded in a table's rows. -/
def tableKeys (t : Table) : List String :=
  t.rows.map (fun r => cellToStr (getCellD t.cols r "COMBINED"))


/-- Column names after running the schema loop from `cs`. -/
def colsAux : List (String × String) → List String → List String
  | [], cs => cs
  | e :: L, cs => if e.1 ∈ cs then colsAux L cs else colsAux L (cs ++ [e.1])

/-- One row after running the schema loop, the column state threaded
through. -/
def rowAux : List (String × String) → List String → List Cell → List Cell
  | [], _, r => r
  | e :: L, cs, r =>
    if e.1 ∈ cs then rowAux L cs (modAt (normCellFor e.2) (idxOf cs e.1) r)
    else rowAux L (cs ++ [e.1]) (r ++ [Cell.str ""])

/-- One row after a schema loop in which every declared column is already
present, so the column list never changes. -/
def rowAuxAll (L : List (String × String)) (CS : List String)
    (r : List Cell) : List Cell :=
  L.foldl (fun r e => modAt (normCellFor e.2) (idxOf CS e.1) r) r

/-- The keys the resolver keeps: first occurrence of each key not already
seen. -/
def keptKeys (seen : List String) : List String → List String
  | [] => []
  | k :: ks =>
    if seen.count k = 0 then k :: keptKeys (seen ++ [k]) ks
    else keptKeys (seen ++ [k]) ks

/-- A cell on which the string coercion is a fixed point after one pass:
re-normalizing the normalized value changes nothing. -/
def stableCell (c : Cell) : Prop := normStrCell (normStrCell c) = normStrCell c

instance : DecidablePred stableCell := fun c => by
  unfold stableCell
  infer_instance

/-- Modelled from the spec's words (Key Builder, section 4.3): "join the
normalized string form of each listed column, in order, with the literal
separator \" | \"".  Compared below against `buildKey`, the embedding of
the `df["COMBINED"]` expression. -/
def specKey (cols : List String) (r : List Cell) : String :=
  String.intercalate " | " (KEYCOLS.map (fun c => cellToStr (getCellD cols r c)))

/-! ### Concrete tables used by counterexamples and witnesses -/

/-- A one-column, one-row table; generic counterexample input. -/
def tC3 : Table := ⟨["CHILD ID"], [[Cell.str "1"]]⟩

/-- One cell `"1.0.0"`: its normalization `"1.0"` still ends in `".0"`. -/
def tC4 : Table := ⟨["REMARKS"], [[Cell.str "1.0.0"]]⟩

/-- The date column present and parseable, all cells stable. -/
def tC4w : Table := ⟨["HOUSE VISIT DATE"], [[Cell.str "31/01/2024"]]⟩

/-- `"1.0.0"` and `"1.0"` normalize apart on pass one and collide on pass
two. -/
def tC5 : Table := ⟨["CHILD ID"], [[Cell.str "1.0.0"], [Cell.str "1.0"]]⟩

/-- A table whose deduped output is a fixed point of the normalizer. -/
def tC5w : Table :=
  ⟨["CHILD ID", "HOUSE VISIT DATE"], [[Cell.str "1", Cell.str "31/01/2024"]]⟩

/-- Two rows that differ only in the `".0"` formatting of the id. -/
def tC8 : Table := ⟨["CHILD ID"], [[Cell.str "12345"], [Cell.str "12345.0"]]⟩

/-- A missing id cell next to a populated cell (so the row survives the
blank-row drop). -/
def tC10 : Table := ⟨["CHILD ID", "REMARKS"], [[Cell.na, Cell.str "x"]]⟩

/-- A fully blank table. -/
def tC7w : Table := ⟨["A", "B"], [[Cell.na, Cell.nullDate], [Cell.na, Cell.na]]⟩

/-- Two rows agreeing on every key column, one trailing non-key cell
different. -/
def tC6w : Table := ⟨["CHILD ID", "Child Name"],
  [[Cell.str "5", Cell.str "ann"], [Cell.str "5", Cell.str "bob"]]⟩

/-! ### Basic list lemmas -/

theorem getD_append_left {α} (l l2 : List α) (i : Nat) (d : α) (h : i < l.length) :
    (l ++ l2).getD i d = l.getD i d := by
  induction l generalizing i with
  | nil => simp at h
  | cons a l ih =>
    cases i with
    | zero => simp
    | succ i => simpa using ih i (by simpa using h)

theorem getD_append_self {α} (l l2 : List α) (x : α) (d : α) :
    (l ++ x :: l2).getD l.length d = x := by
  induction l with
  | nil => simp
  | cons a l ih => simpa using ih

theorem getD_mem {α} (l : List α) (i : Nat) (d : α) (h : i < l.length) :
    l.getD i d ∈ l := by
  induction l generalizing i with
  | nil => simp at h
  | cons a l ih =>
    cases i with
    | zero => simp
    | succ i => exact List.mem_cons_of_mem a (ih i (by simpa using h))

theorem getD_map {α β} (f : α → β) (l : List α) (i : Nat) (d : α) (h : i < l.length) :
    (l.map f).getD i (f d) = f (l.getD i d) := by
  induction l generalizing i with
  | nil => simp at h
  | cons a l ih =>
    cases i with
    | zero => simp
    | succ i => simpa using ih i (by simpa using h)

theorem getD_zip {α β} (A : List α) (B : List β) (i : Nat) (da : α) (db : β)
    (hA : i < A.length) (hB : i < B.length) :
    (A.zip B).getD i (da, db) = (A.getD i da, B.getD i db) := by
  induction A generalizing B i with
  | nil => simp at hA
  | cons a A ih =>
    cases B with
    | nil => simp at hB
    | cons b B =>
      cases i with
      | zero => simp [List.zip_cons_cons]
      | succ i =>
        simpa [List.zip_cons_cons] using
          ih B i (by simpa using hA) (by simpa using hB)

theorem map_eq_self_of_mem {α} (f : α → α) (l : List α) (h : ∀ x ∈ l, f x = x) :
    l.map f = l := by
  induction l with
  | nil => rfl
  | cons a l ih =>
    simp only [List.map_cons, h a (List.mem_cons_self a l)]
    rw [ih (fun x hx => h x (List.mem_cons_of_mem a hx))]

theorem of_map_eq_self {α} (f : α → α) (l : List α) (h : l.map f = l) :
    ∀ x ∈ l, f x = x := by
  induction l with
  | nil => simp
  | cons a l ih =>
    simp only [List.map_cons, List.cons.injEq] at h
    intro x hx
    rcases List.mem_cons.1 hx with rfl | hx
    · exact h.1
    · exact ih h.2 x hx

theorem length_filter_pos_add {α} (B : List α) (p : α → Bool) :
    (B.filter p).length + (B.filter (fun b => !(p b))).length = B.length := by
  induction B with
  | nil => rfl
  | cons b B ih =>
    cases h : p b
    · rw [List.filter_cons, List.filter_cons, h]
      simp only [Bool.not_false, if_true, Bool.false_eq_true, if_false, List.length_cons]
      omega
    · rw [List.filter_cons, List.filter_cons, h]
      simp only [Bool.not_true, if_true, Bool.false_eq_true, if_false, List.length_cons]
      omega

/-! ### `modAt`, `List.set`, `findIdx` -/

theorem modAt_length (f : Cell → Cell) (i : Nat) (l : List Cell) :
    (modAt f i l).length = l.length := by
  induction l generalizing i with
  | nil => cases i <;> rfl
  | cons a l ih =>
    cases i with
    | zero => rfl
    | succ i => simpa [modAt] using ih i

theorem getD_modAt_eq (f : Cell → Cell) (i : Nat) (l : List Cell) (d : Cell)
    (h : i < l.length) : (modAt f i l).getD i d = f (l.getD i d) := by
  induction l generalizing i with
  | nil => simp at h
  | cons a l ih =>
    cases i with
    | zero => rfl
    | succ i => simpa [modAt] using ih i (by simpa using h)

theorem getD_modAt_ne (f : Cell → Cell) (i j : Nat) (l : List Cell) (d : Cell)
    (h : i ≠ j) : (modAt f i l).getD j d = l.getD j d := by
  induction l generalizing i j with
  | nil => cases i <;> rfl
  | cons a l ih =>
    cases i with
    | zero =>
      cases j with
      | zero => exact absurd rfl h
      | succ j => rfl
    | succ i =>
      cases j with
      | zero => rfl
      | succ j => simpa [modAt] using ih i j (fun hc => h (by rw [hc]))

theorem modAt_eq_self (f : Cell → Cell) (i : Nat) (l : List Cell)
    (h : f (l.getD i Cell.na) = l.getD i Cell.na) : modAt f i l = l := by
  induction l generalizing i with
  | nil => cases i <;> rfl
  | cons a l ih =>
    cases i with
    | zero => simpa [modAt] using h
    | succ i =>
      simp only [modAt, List.cons.injEq, true_and]
      exact ih i (by simpa using h)

theorem getD_set_eq {α} (l : List α) (i : Nat) (v d : α) (h : i < l.length) :
    (l.set i v).getD i d = v := by
  induction l generalizing i with
  | nil => simp at h
  | cons a l ih =>
    cases i with
    | zero => rfl
    | succ i => simpa using ih i (by simpa using h)

theorem getD_set_ne {α} (l : List α) (i j : Nat) (v d : α) (h : i ≠ j) :
    (l.set i v).getD j d = l.getD j d := by
  induction l generalizing i j with
  | nil => rfl
  | cons a l ih =>
    cases i with
    | zero =>
      cases j with
      | zero => exact absurd rfl h
      | succ j => rfl
    | succ i =>
      cases j with
      | zero => rfl
      | succ j => simpa using ih i j (fun hc => h (by rw [hc]))

theorem findIdx_lt_length_of_mem (l : List String) (c : String) (h : c ∈ l) :
    idxOf l c < l.length := by
  induction l with
  | nil => simp at h
  | cons a l ih =>
    by_cases ha : a = c
    · simp [idxOf, List.findIdx_cons, ha]
    · rcases List.mem_cons.1 h with rfl | h
      · exact absurd rfl ha
      · simpa [idxOf, List.findIdx_cons, ha] using ih h

theorem getD_cols_idxOf (l : List String) (c : String) (h : c ∈ l) (d : String) :
    l.getD (idxOf l c) d = c := by
  induction l with
  | nil => simp at h
  | cons a l ih =>
    by_cases ha : a = c
    · simp [idxOf, List.findIdx_cons, ha]
    · rcases List.mem_cons.1 h with rfl | h
      · exact absurd rfl ha
      · simpa [idxOf, List.findIdx_cons, ha] using ih h

theorem idxOf_append_of_mem (l l2 : List String) (c : String) (h : c ∈ l) :
    idxOf (l ++ l2) c = idxOf l c := by
  induction l with
  | nil => simp at h
  | cons a l ih =>
    by_cases ha : a = c
    · simp [idxOf, List.findIdx_cons, ha]
    · rcases List.mem_cons.1 h with rfl | h
      · exact absurd rfl ha
      · simpa [idxOf, List.findIdx_cons, ha] using ih h

theorem idxOf_append_self (l l2 : List String) (c : String) (h : c ∉ l) :
    idxOf (l ++ c :: l2) c = l.length := by
  induction l with
  | nil => simp [idxOf, List.findIdx_cons]
  | cons a l ih =>
    have ha : a ≠ c := fun hc => h (hc ▸ List.mem_cons_self a l)
    have : c ∉ l := fun hc => h (List.mem_cons_of_mem a hc)
    simpa [idxOf, List.findIdx_cons, ha] using ih this

theorem idxOf_eq_length_of_not_mem (l : List String) (c : String) (h : c ∉ l) :
    idxOf l c = l.length := by
  induction l with
  | nil => rfl
  | cons a l ih =>
    have ha : a ≠ c := fun hc => h (hc ▸ List.mem_cons_self a l)
    have : c ∉ l := fun hc => h (List.mem_cons_of_mem a hc)
    simpa [idxOf, List.findIdx_cons, ha] using ih this

theorem idxOf_distinct (l : List String) (c c2 : String) (hc : c ∈ l)
    (hne : c ≠ c2) : idxOf l c ≠ idxOf l c2 := by
  intro h
  by_cases h2 : c2 ∈ l
  · have e1 := getD_cols_idxOf l c hc ""
    have e2 := getD_cols_idxOf l c2 h2 ""
    rw [h] at e1
    exact hne (e1.symm.trans e2)
  · have hlt := findIdx_lt_length_of_mem l c hc
    rw [h, idxOf_eq_length_of_not_mem l c2 h2] at hlt
    exact Nat.lt_irrefl _ hlt

/-! ### Ranks: `groupby(...).cumcount()` -/

theorem ranksAux_length (ks seen : List String) :
    (ranksAux seen ks).length = ks.length := by
  induction ks generalizing seen with
  | nil => rfl
  | cons k ks ih => simpa [ranksAux] using ih (seen ++ [k])

theorem ranks_length (ks : List String) : (ranks ks).length = ks.length :=
  ranksAux_length ks []

/-- A rank is zero exactly when the key occurs neither among the already
seen keys nor earlier in the list. -/
theorem ranksAux_zero_iff (ks : List String) :
    ∀ (seen : List String) (i : Nat), i < ks.length →
      ((ranksAux seen ks).getD i 1 = 0 ↔
        seen.count (ks.getD i "") = 0 ∧
          ∀ j, j < i → ks.getD j "" ≠ ks.getD i "") := by
  induction ks with
  | nil => intro seen i h; simp at h
  | cons k ks ih =>
    intro seen i h
    cases i with
    | zero =>
      simp only [ranksAux, List.getD_cons_zero]
      constructor
      · intro h0; exact ⟨h0, fun j hj => absurd hj (Nat.not_lt_zero j)⟩
      · intro h0; exact h0.1
    | succ i =>
      simp only [ranksAux, List.getD_cons_succ]
      rw [ih (seen ++ [k]) i (by simpa using h)]
      have hcnt : (seen ++ [k]).count (ks.getD i "") =
          seen.count (ks.getD i "") + (if k = ks.getD i "" then 1 else 0) := by
        rw [List.count_append]
        simp [List.count_singleton', eq_comm]
      constructor
      · rintro ⟨hc, hj⟩
        rw [hcnt] at hc
        have h1 : seen.count (ks.getD i "") = 0 := by omega
        have h2 : k ≠ ks.getD i "" := by
          intro hk; rw [if_pos hk] at hc; omega
        refine ⟨h1, ?_⟩
        intro j hjlt
        cases j with
        | zero => simpa using h2
        | succ j => simpa using hj j (by omega)
      · rintro ⟨hc, hj⟩
        have h2 : k ≠ ks.getD i "" := by simpa using hj 0 (Nat.succ_pos i)
        constructor
        · rw [hcnt, if_neg h2, hc]
        · intro j hjlt
          simpa using hj (j + 1) (by omega)


theorem keptKeys_not_seen (ks : List String) :
    ∀ seen, ∀ x ∈ keptKeys seen ks, x ∉ seen := by
  induction ks with
  | nil => intro seen x hx; simp [keptKeys] at hx
  | cons k ks ih =>
    intro seen x hx
    by_cases h : seen.count k = 0
    · rw [keptKeys, if_pos h] at hx
      rcases List.mem_cons.1 hx with rfl | hx
      · exact List.count_eq_zero.1 h
      · intro hxs
        exact ih (seen ++ [k]) x hx (List.mem_append_left [k] hxs)
    · rw [keptKeys, if_neg h] at hx
      intro hxs
      exact ih (seen ++ [k]) x hx (List.mem_append_left [k] hxs)

theorem keptKeys_nodup (ks : List String) :
    ∀ seen, (keptKeys seen ks).Nodup := by
  induction ks with
  | nil => intro seen; simp [keptKeys]
  | cons k ks ih =>
    intro seen
    by_cases h : seen.count k = 0
    · rw [keptKeys, if_pos h]
      refine List.nodup_cons.2 ⟨?_, ih (seen ++ [k])⟩
      intro hk
      exact keptKeys_not_seen ks (seen ++ [k]) k hk
        (List.mem_append_right seen (List.mem_singleton.2 rfl))
    · rw [keptKeys, if_neg h]
      exact ih (seen ++ [k])

theorem keptKeys_complete (ks : List String) :
    ∀ seen k, k ∈ ks → k ∈ seen ∨ k ∈ keptKeys seen ks := by
  induction ks with
  | nil => intro seen k hk; simp at hk
  | cons k0 ks ih =>
    intro seen k hk
    by_cases h : seen.count k0 = 0
    · rw [keptKeys, if_pos h]
      rcases List.mem_cons.1 hk with rfl | hk
      · exact Or.inr (List.mem_cons_self k _)
      · rcases ih (seen ++ [k0]) k hk with hs | hkept
        · rcases List.mem_append.1 hs with hs | hs
          · exact Or.inl hs
          · exact Or.inr (List.mem_cons.2 (Or.inl (List.mem_singleton.1 hs)))
        · exact Or.inr (List.mem_cons_of_mem k0 hkept)
    · rw [keptKeys, if_neg h]
      rcases List.mem_cons.1 hk with rfl | hk
      · exact Or.inl (List.count_pos_iff.1 (Nat.pos_of_ne_zero h))
      · rcases ih (seen ++ [k0]) k hk with hs | hkept
        · rcases List.mem_append.1 hs with hs | hs
          · exact Or.inl hs
          · rcases List.mem_singleton.1 hs with rfl
            exact Or.inl (List.count_pos_iff.1 (Nat.pos_of_ne_zero h))
        · exact Or.inr hkept

/-- Reading any per-row key function across the rank-zero filter gives
exactly the kept keys. -/
theorem filter_zip_ranks (readK : List Cell → String) (ks : List String) :
    ∀ (A : List (List Cell)) (seen : List String),
      A.length = ks.length →
      (∀ i, i < A.length → readK (A.getD i []) = ks.getD i "") →
      ((A.zip (ranksAux seen ks)).filter (fun p => p.2 = 0)).map
          (fun p => readK p.1) =
        keptKeys seen ks := by
  induction ks with
  | nil =>
    intro A seen hlen _
    rw [List.length_eq_zero.1 hlen]
    rfl
  | cons k ks ih =>
    intro A seen hlen hread
    cases A with
    | nil => simp at hlen
    | cons a A =>
      have ha : readK a = k := by simpa using hread 0 (Nat.succ_pos _)
      have hrec := ih A (seen ++ [k]) (by simpa using hlen)
        (fun i hi => by simpa using hread (i + 1) (by simpa using Nat.succ_lt_succ hi))
      by_cases h : seen.count k = 0
      · rw [keptKeys, if_pos h]
        simp only [ranksAux, List.zip_cons_cons, List.filter_cons]
        rw [if_pos (by simpa using h)]
        simpa [ha] using hrec
      · rw [keptKeys, if_neg h]
        simp only [ranksAux, List.zip_cons_cons, List.filter_cons]
        rw [if_neg (by simpa using h)]
        exact hrec

/-- A `Nodup` key list gets all-zero ranks. -/
theorem ranks_all_zero (ks : List String) :
    ∀ seen, ks.Nodup → (∀ x ∈ ks, x ∉ seen) →
      ∀ r ∈ ranksAux seen ks, r = 0 := by
  induction ks with
  | nil => intro seen _ _ r hr; simp [ranksAux] at hr
  | cons k ks ih =>
    intro seen hnd hdisj r hr
    rcases List.mem_cons.1 hr with rfl | hr
    · exact List.count_eq_zero.2 (hdisj k (List.mem_cons_self k ks))
    · refine ih (seen ++ [k]) (List.nodup_cons.1 hnd).2 ?_ r hr
      intro x hx hxs
      rcases List.mem_append.1 hxs with hxs | hxs
      · exact hdisj x (List.mem_cons_of_mem k hx) hxs
      · rcases List.mem_singleton.1 hxs with rfl
        exact (List.nodup_cons.1 hnd).1 hx

/-! ### Factoring the `apply_schema_types` loop into columns and rows -/


theorem foldl_stepTab (L : List (String × String)) :
    ∀ (cs : List String) (rs : List (List Cell)),
      L.foldl stepTab ⟨cs, rs⟩ = ⟨colsAux L cs, rs.map (rowAux L cs)⟩ := by
  induction L with
  | nil =>
    intro cs rs
    simp [colsAux, rowAux]
  | cons e L ih =>
    intro cs rs
    rw [List.foldl_cons]
    by_cases h : e.1 ∈ cs
    · have hstep : stepTab ⟨cs, rs⟩ e =
          ⟨cs, rs.map (modAt (normCellFor e.2) (idxOf cs e.1))⟩ := by
        simp [stepTab, Table.modifyCol, h]
      rw [hstep, ih, List.map_map]
      have hc : colsAux (e :: L) cs = colsAux L cs := by
        simp [colsAux, h]
      have hr : ∀ r, rowAux (e :: L) cs r =
          rowAux L cs (modAt (normCellFor e.2) (idxOf cs e.1) r) := by
        intro r; simp [rowAux, h]
      rw [hc]
      refine congrArg (Table.mk _) ?_
      exact List.map_congr_left (fun r _ => (hr r).symm) ▸ rfl
    · have hstep : stepTab ⟨cs, rs⟩ e =
          ⟨cs ++ [e.1], rs.map (fun r => r ++ [Cell.str ""])⟩ := by
        simp [stepTab, Table.addCol, h]
      rw [hstep, ih, List.map_map]
      have hc : colsAux (e :: L) cs = colsAux L (cs ++ [e.1]) := by
        simp [colsAux, h]
      have hr : ∀ r, rowAux (e :: L) cs r =
          rowAux L (cs ++ [e.1]) (r ++ [Cell.str ""]) := by
        intro r; simp [rowAux, h]
      rw [hc]
      refine congrArg (Table.mk _) ?_
      exact List.map_congr_left (fun r _ => (hr r).symm) ▸ rfl

theorem apply_schema_types_eq (t : Table) :
    apply_schema_types t =
      ⟨colsAux SCHEMA (t.cols.map pstrip),
       t.rows.map (rowAux SCHEMA (t.cols.map pstrip))⟩ :=
  foldl_stepTab SCHEMA (t.cols.map pstrip) t.rows

theorem colsAux_extend (L : List (String × String)) :
    ∀ cs, ∃ ext, colsAux L cs = cs ++ ext := by
  induction L with
  | nil => intro cs; exact ⟨[], by simp [colsAux]⟩
  | cons e L ih =>
    intro cs
    by_cases h : e.1 ∈ cs
    · obtain ⟨ext, hext⟩ := ih cs
      exact ⟨ext, by simpa [colsAux, h] using hext⟩
    · obtain ⟨ext, hext⟩ := ih (cs ++ [e.1])
      refine ⟨[e.1] ++ ext, ?_⟩
      simp only [colsAux, h, if_false]
      rw [hext, List.append_assoc]

theorem mem_colsAux_of_mem (L : List (String × String)) (cs : List String)
    (x : String) (h : x ∈ cs) : x ∈ colsAux L cs := by
  obtain ⟨ext, hext⟩ := colsAux_extend L cs
  rw [hext]
  exact List.mem_append_left ext h

theorem mem_colsAux_entry (L : List (String × String)) :
    ∀ cs, ∀ e ∈ L, e.1 ∈ colsAux L cs := by
  induction L with
  | nil => intro cs e he; simp at he
  | cons e0 L ih =>
    intro cs e he
    rcases List.mem_cons.1 he with rfl | he
    · by_cases h : e.1 ∈ cs
      · simpa [colsAux, h] using mem_colsAux_of_mem L cs e.1 h
      · simp only [colsAux, h, if_false]
        exact mem_colsAux_of_mem L (cs ++ [e.1]) e.1
          (List.mem_append_right cs (List.mem_singleton.2 rfl))
    · by_cases h : e0.1 ∈ cs
      · simpa [colsAux, h] using ih cs e he
      · simpa [colsAux, h] using ih (cs ++ [e0.1]) e he

theorem colsAux_all_mem (L : List (String × String)) :
    ∀ cs, (∀ e ∈ L, e.1 ∈ cs) → colsAux L cs = cs := by
  induction L with
  | nil => intro cs _; rfl
  | cons e L ih =>
    intro cs h
    have he : e.1 ∈ cs := h e (List.mem_cons_self e L)
    simp only [colsAux, he, if_true]
    exact ih cs (fun e2 he2 => h e2 (List.mem_cons_of_mem e he2))

theorem colsAux_stable (L : List (String × String)) :
    ∀ cs, (∀ x ∈ cs, pstrip x = x) → (∀ e ∈ L, pstrip e.1 = e.1) →
      ∀ x ∈ colsAux L cs, pstrip x = x := by
  induction L with
  | nil => intro cs hcs _ x hx; exact hcs x hx
  | cons e L ih =>
    intro cs hcs hL x hx
    by_cases h : e.1 ∈ cs
    · rw [colsAux, if_pos h] at hx
      exact ih cs hcs (fun e2 he2 => hL e2 (List.mem_cons_of_mem e he2)) x hx
    · rw [colsAux, if_neg h] at hx
      refine ih (cs ++ [e.1]) ?_
        (fun e2 he2 => hL e2 (List.mem_cons_of_mem e he2)) x hx
      intro y hy
      rcases List.mem_append.1 hy with hy | hy
      · exact hcs y hy
      · rcases List.mem_singleton.1 hy with rfl
        exact hL e (List.mem_cons_self e L)

theorem rowAux_length (L : List (String × String)) :
    ∀ cs r, (r : List Cell).length = cs.length →
      (rowAux L cs r).length = (colsAux L cs).length := by
  induction L with
  | nil => intro cs r h; simpa [rowAux, colsAux] using h
  | cons e L ih =>
    intro cs r h
    by_cases hm : e.1 ∈ cs
    · simp only [rowAux, colsAux, hm, if_true]
      exact ih cs _ (by rw [modAt_length]; exact h)
    · simp only [rowAux, colsAux, hm, if_false]
      exact ih (cs ++ [e.1]) _ (by simp [h])

theorem rowAux_all_mem (L : List (String × String)) :
    ∀ CS r, (∀ e ∈ L, e.1 ∈ CS) → rowAux L CS r = rowAuxAll L CS r := by
  induction L with
  | nil => intro CS r _; rfl
  | cons e L ih =>
    intro CS r h
    have he : e.1 ∈ CS := h e (List.mem_cons_self e L)
    simp only [rowAux, he, if_true, rowAuxAll, List.foldl_cons]
    exact ih CS _ (fun e2 he2 => h e2 (List.mem_cons_of_mem e he2))

/-- A cell whose column name is touched by no remaining schema entry is
left alone by the loop. -/
theorem rowAux_untouched (L : List (String × String)) :
    ∀ cs r i, i < cs.length → (r : List Cell).length = cs.length →
      (∀ e ∈ L, e.1 ≠ cs.getD i "") →
      (rowAux L cs r).getD i Cell.na = r.getD i Cell.na := by
  induction L with
  | nil => intro cs r i _ _ _; rfl
  | cons e L ih =>
    intro cs r i hi hlen hne
    by_cases hm : e.1 ∈ cs
    · simp only [rowAux, hm, if_true]
      rw [ih cs _ i hi (by rw [modAt_length]; exact hlen)
        (fun e2 he2 => hne e2 (List.mem_cons_of_mem e he2))]
      refine getD_modAt_ne _ _ _ _ _ ?_
      intro hc
      have h1 : cs.getD (idxOf cs e.1) "" = e.1 := getD_cols_idxOf cs e.1 hm ""
      rw [hc] at h1
      exact hne e (List.mem_cons_self e L) h1.symm
    · simp only [rowAux, hm, if_false]
      have hi' : i < (cs ++ [e.1]).length := by simp; omega
      have hlen' : (r ++ [Cell.str ""]).length = (cs ++ [e.1]).length := by
        simp [hlen]
      have hne' : ∀ e2 ∈ L, e2.1 ≠ (cs ++ [e.1]).getD i "" := by
        intro e2 he2
        rw [getD_append_left cs [e.1] i "" hi]
        exact hne e2 (List.mem_cons_of_mem e he2)
      rw [ih (cs ++ [e.1]) _ i hi' hlen' hne']
      exact getD_append_left r [Cell.str ""] i Cell.na (by omega)

/-! ### Idempotence facts about stripping and cell coercion -/

theorem dropWs_dropWs (l : List Char) : dropWs (dropWs l) = dropWs l := by
  induction l with
  | nil => rfl
  | cons c cs ih =>
    simp only [dropWs] at ih ⊢
    rw [List.dropWhile_cons]
    by_cases h : isWs c = true
    · rw [if_pos h]
      exact ih
    · rw [if_neg h, List.dropWhile_cons, if_neg h]

theorem pstripR_idem (l : List Char) : pstripR (pstripR l) = pstripR l := by
  induction l with
  | nil => rfl
  | cons c cs ih =>
    rcases h : pstripR cs with _ | ⟨x, xs⟩
    · by_cases hw : isWs c
      · simp [pstripR, h, hw]
      · simp [pstripR, h, hw]
    · rw [pstripR, h]
      rw [h] at ih
      rw [pstripR, ih]

theorem pstripR_head (l : List Char) (x : Char) (xs : List Char)
    (h : pstripR l = x :: xs) : ∃ t, l = x :: t := by
  cases l with
  | nil => simp [pstripR] at h
  | cons c cs =>
    rcases h2 : pstripR cs with _ | ⟨y, ys⟩
    · rw [pstripR, h2] at h
      by_cases hw : isWs c
      · rw [if_pos hw] at h; cases h
      · rw [if_neg hw] at h
        cases h
        exact ⟨cs, rfl⟩
    · rw [pstripR, h2] at h
      cases h
      exact ⟨cs, rfl⟩

theorem dropWs_head_not_ws (l : List Char) (c : Char) (cs : List Char)
    (h : dropWs l = c :: cs) : isWs c = false := by
  induction l with
  | nil => simp [dropWs] at h
  | cons a l ih =>
    by_cases hw : isWs a
    · rw [dropWs, List.dropWhile_cons, if_pos hw] at h
      exact ih h
    · rw [dropWs, List.dropWhile_cons, if_neg hw] at h
      cases h
      simpa using hw

theorem pstrip_idem (s : String) : pstrip (pstrip s) = pstrip s := by
  show (⟨pstripR (dropWs (pstripR (dropWs s.data)))⟩ : String) =
    ⟨pstripR (dropWs s.data)⟩
  rcases hB : pstripR (dropWs s.data) with _ | ⟨x, xs⟩
  · simp [hB, dropWs, pstripR]
  · obtain ⟨t, ht⟩ := pstripR_head (dropWs s.data) x xs hB
    have hx : isWs x = false := dropWs_head_not_ws s.data x t ht
    have h1 : dropWs (x :: xs) = x :: xs := by
      rw [dropWs, List.dropWhile_cons, if_neg (by simp [hx])]
    rw [h1, ← hB, pstripR_idem, hB]

theorem normDateCell_idem (c : Cell) :
    normDateCell (normDateCell c) = normDateCell c := by
  cases c with
  | str s =>
    rcases h : parseDateDayFirst s with _ | d <;> simp [normDateCell, h]
  | _ => rfl


theorem stableCell_normStrCell (c : Cell) (h : stableCell c) :
    stableCell (normStrCell c) := by
  unfold stableCell at h ⊢
  rw [h, h]

theorem stableCell_empty : stableCell (Cell.str "") := by decide

theorem normStrCell_empty : normStrCell (Cell.str "") = Cell.str "" := by decide

/-- Running the schema loop a second time (with every column then present)
changes nothing, provided every declared date column was present from the
start and the cells are stable under the string coercion. -/
theorem rowAux_double (L : List (String × String)) :
    ∀ (cs : List String) (r : List Cell),
      (L.map Prod.fst).Nodup →
      r.length = cs.length →
      (∀ e ∈ L, e.2 = "date" → e.1 ∈ cs) →
      (∀ i, i < r.length →
        stableCell (r.getD i Cell.na) ∨
          (∀ e ∈ L, e.1 = cs.getD i "" → e.2 = "date")) →
      rowAuxAll L (colsAux L cs) (rowAux L cs r) = rowAux L cs r := by
  induction L with
  | nil => intro cs r _ _ _ _; rfl
  | cons e L ih =>
    intro cs r hnd hlen hdate hinv
    rw [List.map_cons] at hnd
    have hhead : e.1 ∉ L.map Prod.fst := (List.nodup_cons.1 hnd).1
    have htail : (L.map Prod.fst).Nodup := (List.nodup_cons.1 hnd).2
    have hne_tail : ∀ e2 ∈ L, e2.1 ≠ e.1 := by
      intro e2 he2 hc
      exact hhead (hc ▸ List.mem_map_of_mem Prod.fst he2)
    by_cases hm : e.1 ∈ cs
    · have hcols : colsAux (e :: L) cs = colsAux L cs := by
        rw [colsAux, if_pos hm]
      have hrow : rowAux (e :: L) cs r =
          rowAux L cs (modAt (normCellFor e.2) (idxOf cs e.1) r) := by
        rw [rowAux, if_pos hm]
      have hi1lt : idxOf cs e.1 < cs.length := findIdx_lt_length_of_mem cs e.1 hm
      have hi1r : idxOf cs e.1 < r.length := by omega
      have hcsi1 : cs.getD (idxOf cs e.1) "" = e.1 := getD_cols_idxOf cs e.1 hm ""
      have hr'len : (modAt (normCellFor e.2) (idxOf cs e.1) r).length = cs.length := by
        rw [modAt_length]; exact hlen
      have hval : (modAt (normCellFor e.2) (idxOf cs e.1) r).getD (idxOf cs e.1) Cell.na =
          normCellFor e.2 (r.getD (idxOf cs e.1) Cell.na) :=
        getD_modAt_eq _ _ r Cell.na hi1r
      have hstab : normCellFor e.2 (normCellFor e.2 (r.getD (idxOf cs e.1) Cell.na)) =
          normCellFor e.2 (r.getD (idxOf cs e.1) Cell.na) := by
        by_cases hd : e.2 = "date"
        · simp only [normCellFor, hd, if_pos rfl]
          exact normDateCell_idem _
        · rcases hinv (idxOf cs e.1) hi1r with hst | hdis
          · simp only [normCellFor, hd, if_neg hd]
            exact hst
          · exact absurd (hdis e (List.mem_cons_self e L) hcsi1.symm) hd
      have huntouched : (rowAux L cs (modAt (normCellFor e.2) (idxOf cs e.1) r)).getD
            (idxOf cs e.1) Cell.na =
          (modAt (normCellFor e.2) (idxOf cs e.1) r).getD (idxOf cs e.1) Cell.na := by
        refine rowAux_untouched L cs _ _ hi1lt hr'len ?_
        intro e2 he2
        rw [hcsi1]
        exact hne_tail e2 he2
      have hi2 : idxOf (colsAux L cs) e.1 = idxOf cs e.1 := by
        obtain ⟨ext, hext⟩ := colsAux_extend L cs
        rw [hext]
        exact idxOf_append_of_mem cs ext e.1 hm
      have hnoop : modAt (normCellFor e.2) (idxOf (colsAux L cs) e.1)
            (rowAux L cs (modAt (normCellFor e.2) (idxOf cs e.1) r)) =
          rowAux L cs (modAt (normCellFor e.2) (idxOf cs e.1) r) := by
        rw [hi2]
        refine modAt_eq_self _ _ _ ?_
        rw [huntouched, hval]
        exact hstab
      have hstep : rowAuxAll (e :: L) (colsAux L cs)
            (rowAux L cs (modAt (normCellFor e.2) (idxOf cs e.1) r)) =
          rowAuxAll L (colsAux L cs)
            (modAt (normCellFor e.2) (idxOf (colsAux L cs) e.1)
              (rowAux L cs (modAt (normCellFor e.2) (idxOf cs e.1) r))) := by
        rw [rowAuxAll, rowAuxAll, List.foldl_cons]
      rw [hcols, hrow, hstep, hnoop]
      refine ih cs _ htail hr'len
        (fun e2 he2 hd2 => hdate e2 (List.mem_cons_of_mem e he2) hd2) ?_
      intro i hi
      rw [hr'len] at hi
      by_cases hii : i = idxOf cs e.1
      · subst hii
        by_cases hd : e.2 = "date"
        · right
          intro e2 he2 hc
          exact absurd (hc.trans hcsi1) (hne_tail e2 he2)
        · left
          rw [hval]
          rcases hinv (idxOf cs e.1) hi1r with hst | hdis
          · have : normCellFor e.2 (r.getD (idxOf cs e.1) Cell.na) =
                normStrCell (r.getD (idxOf cs e.1) Cell.na) := by
              simp only [normCellFor, if_neg hd]
            rw [this]
            exact stableCell_normStrCell _ hst
          · exact absurd (hdis e (List.mem_cons_self e L) hcsi1.symm) hd
      · have hunch : (modAt (normCellFor e.2) (idxOf cs e.1) r).getD i Cell.na =
            r.getD i Cell.na :=
          getD_modAt_ne _ _ _ r Cell.na (fun hc => hii hc.symm)
        rw [hunch]
        rcases hinv i (by omega) with hst | hdis
        · exact Or.inl hst
        · exact Or.inr (fun e2 he2 => hdis e2 (List.mem_cons_of_mem e he2))
    · have hd_ne : e.2 ≠ "date" := fun hd => hm (hdate e (List.mem_cons_self e L) hd)
      have hcols : colsAux (e :: L) cs = colsAux L (cs ++ [e.1]) := by
        rw [colsAux, if_neg hm]
      have hrow : rowAux (e :: L) cs r =
          rowAux L (cs ++ [e.1]) (r ++ [Cell.str ""]) := by
        rw [rowAux, if_neg hm]
      have hlen' : (r ++ [Cell.str ""]).length = (cs ++ [e.1]).length := by
        simp [hlen]
      have hi2 : idxOf (colsAux L (cs ++ [e.1])) e.1 = cs.length := by
        obtain ⟨ext, hext⟩ := colsAux_extend L (cs ++ [e.1])
        rw [hext, List.append_assoc]
        exact idxOf_append_self cs ext e.1 hm
      have hcs'get : (cs ++ [e.1]).getD cs.length "" = e.1 :=
        getD_append_self cs [] e.1 ""
      have hval : (r ++ [Cell.str ""]).getD cs.length Cell.na = Cell.str "" := by
        have h0 := getD_append_self r [] (Cell.str "") Cell.na
        rw [hlen] at h0
        exact h0
      have huntouched : (rowAux L (cs ++ [e.1]) (r ++ [Cell.str ""])).getD
            cs.length Cell.na =
          (r ++ [Cell.str ""]).getD cs.length Cell.na := by
        refine rowAux_untouched L (cs ++ [e.1]) _ cs.length (by simp) hlen' ?_
        intro e2 he2
        rw [hcs'get]
        exact hne_tail e2 he2
      have hnoop : modAt (normCellFor e.2) (idxOf (colsAux L (cs ++ [e.1])) e.1)
            (rowAux L (cs ++ [e.1]) (r ++ [Cell.str ""])) =
          rowAux L (cs ++ [e.1]) (r ++ [Cell.str ""]) := by
        rw [hi2]
        refine modAt_eq_self _ _ _ ?_
        rw [huntouched, hval]
        simp only [normCellFor, if_neg hd_ne]
        exact normStrCell_empty
      have hstep : rowAuxAll (e :: L) (colsAux L (cs ++ [e.1]))
            (rowAux L (cs ++ [e.1]) (r ++ [Cell.str ""])) =
          rowAuxAll L (colsAux L (cs ++ [e.1]))
            (modAt (normCellFor e.2) (idxOf (colsAux L (cs ++ [e.1])) e.1)
              (rowAux L (cs ++ [e.1]) (r ++ [Cell.str ""]))) := by
        rw [rowAuxAll, rowAuxAll, List.foldl_cons]
      rw [hcols, hrow, hstep, hnoop]
      refine ih (cs ++ [e.1]) _ htail hlen' ?_ ?_
      · intro e2 he2 hd2
        exact List.mem_append_left [e.1]
          (hdate e2 (List.mem_cons_of_mem e he2) hd2)
      · intro i hi
        simp only [List.length_append, List.length_cons, List.length_nil] at hi
        by_cases hii : i < r.length
        · have hget : (r ++ [Cell.str ""]).getD i Cell.na = r.getD i Cell.na :=
            getD_append_left r [Cell.str ""] i Cell.na hii
          have hcget : (cs ++ [e.1]).getD i "" = cs.getD i "" :=
            getD_append_left cs [e.1] i "" (by omega)
          rw [hget, hcget]
          rcases hinv i hii with hst | hdis
          · exact Or.inl hst
          · exact Or.inr (fun e2 he2 => hdis e2 (List.mem_cons_of_mem e he2))
        · have hieq : i = r.length := by omega
          subst hieq
          left
          rw [getD_append_self r [] (Cell.str "") Cell.na]
          exact stableCell_empty

/-! ### Reading columns back through `setCol` -/

theorem getD_irrel {α} (l : List α) (i : Nat) (d1 d2 : α) (h : i < l.length) :
    l.getD i d1 = l.getD i d2 := by
  induction l generalizing i with
  | nil => simp at h
  | cons a l ih =>
    cases i with
    | zero => rfl
    | succ i => simpa using ih i (by simpa using h)

theorem getD_map_zip {α β γ} (f : α × β → γ) (A : List α) (B : List β)
    (i : Nat) (da : α) (db : β) (dg : γ) (hA : i < A.length) (hB : i < B.length) :
    ((A.zip B).map f).getD i dg = f (A.getD i da, B.getD i db) := by
  have hz : i < (A.zip B).length := by rw [List.length_zip]; omega
  rw [getD_irrel _ i dg (f (da, db)) (by rw [List.length_map]; exact hz)]
  rw [getD_map f (A.zip B) i (da, db) hz]
  rw [getD_zip A B i da db hA hB]

theorem setCol_cols_mem (t : Table) (c : String) (vs : List Cell) :
    c ∈ (t.setCol c vs).cols := by
  by_cases h : c ∈ t.cols
  · simpa [Table.setCol, h] using h
  · simp [Table.setCol, h]

theorem setCol_cols_of_mem (t : Table) (c c2 : String) (vs : List Cell)
    (h : c2 ∈ t.cols) : c2 ∈ (t.setCol c vs).cols := by
  by_cases hc : c ∈ t.cols
  · simpa [Table.setCol, hc] using h
  · simp only [Table.setCol, hc, if_neg, if_false]
    exact List.mem_append_left _ h

theorem setCol_rows_length (t : Table) (c : String) (vs : List Cell)
    (h : vs.length = t.rows.length) :
    (t.setCol c vs).rows.length = t.rows.length := by
  by_cases hc : c ∈ t.cols <;>
    simp [Table.setCol, hc, List.length_zip, h]

theorem setCol_rows_getD (t : Table) (c : String) (vs : List Cell)
    (hlen : vs.length = t.rows.length) (i : Nat) (hi : i < t.rows.length) :
    (t.setCol c vs).rows.getD i [] =
      (if c ∈ t.cols then (t.rows.getD i []).set (idxOf t.cols c) (vs.getD i Cell.na)
       else (t.rows.getD i []) ++ [vs.getD i Cell.na]) := by
  by_cases hc : c ∈ t.cols
  · rw [if_pos hc]
    have hrows : (t.setCol c vs).rows =
        (t.rows.zip vs).map (fun p => p.1.set (idxOf t.cols c) p.2) := by
      simp [Table.setCol, hc]
    rw [hrows, getD_map_zip _ t.rows vs i [] Cell.na [] hi (by omega)]
  · rw [if_neg hc]
    have hrows : (t.setCol c vs).rows =
        (t.rows.zip vs).map (fun p => p.1 ++ [p.2]) := by
      simp [Table.setCol, hc]
    rw [hrows, getD_map_zip _ t.rows vs i [] Cell.na [] hi (by omega)]

theorem setCol_WF (t : Table) (c : String) (vs : List Cell) (hWF : t.WF)
    (h : vs.length = t.rows.length) : (t.setCol c vs).WF := by
  by_cases hc : c ∈ t.cols
  · intro r hr
    simp only [Table.setCol, hc, if_pos] at hr ⊢
    obtain ⟨p, hp, rfl⟩ := List.mem_map.1 hr
    rw [List.length_set]
    exact hWF p.1 (List.of_mem_zip hp).1
  · intro r hr
    simp only [Table.setCol, hc, if_neg, if_false] at hr ⊢
    obtain ⟨p, hp, rfl⟩ := List.mem_map.1 hr
    have := hWF p.1 (List.of_mem_zip hp).1
    simp only [List.length_append, List.length_cons, List.length_nil,
      List.length_singleton]
    omega

theorem setCol_read_new (t : Table) (c : String) (vs : List Cell) (hWF : t.WF)
    (hlen : vs.length = t.rows.length) (i : Nat) (hi : i < t.rows.length) :
    getCellD (t.setCol c vs).cols ((t.setCol c vs).rows.getD i []) c =
      vs.getD i Cell.na := by
  have hrowlen : (t.rows.getD i []).length = t.cols.length :=
    hWF _ (getD_mem t.rows i [] hi)
  rw [setCol_rows_getD t c vs hlen i hi]
  by_cases hc : c ∈ t.cols
  · rw [if_pos hc]
    have hcols : (t.setCol c vs).cols = t.cols := by simp [Table.setCol, hc]
    rw [hcols]
    unfold getCellD
    refine getD_set_eq _ _ _ _ ?_
    rw [hrowlen]
    exact findIdx_lt_length_of_mem t.cols c hc
  · rw [if_neg hc]
    have hcols : (t.setCol c vs).cols = t.cols ++ [c] := by simp [Table.setCol, hc]
    rw [hcols]
    unfold getCellD
    have hidx : idxOf (t.cols ++ [c]) c = t.cols.length :=
      idxOf_append_self t.cols [] c hc
    rw [hidx, ← hrowlen]
    exact getD_append_self _ [] _ _

theorem setCol_read_other (t : Table) (c c2 : String) (vs : List Cell)
    (hWF : t.WF) (hlen : vs.length = t.rows.length) (hne : c2 ≠ c)
    (hmem : c2 ∈ t.cols) (i : Nat) (hi : i < t.rows.length) :
    getCellD (t.setCol c vs).cols ((t.setCol c vs).rows.getD i []) c2 =
      getCellD t.cols (t.rows.getD i []) c2 := by
  have hrowlen : (t.rows.getD i []).length = t.cols.length :=
    hWF _ (getD_mem t.rows i [] hi)
  rw [setCol_rows_getD t c vs hlen i hi]
  by_cases hc : c ∈ t.cols
  · rw [if_pos hc]
    have hcols : (t.setCol c vs).cols = t.cols := by simp [Table.setCol, hc]
    rw [hcols]
    unfold getCellD
    refine getD_set_ne _ _ _ _ _ ?_
    exact (idxOf_distinct t.cols c2 c hmem hne).symm
  · rw [if_neg hc]
    have hcols : (t.setCol c vs).cols = t.cols ++ [c] := by simp [Table.setCol, hc]
    rw [hcols]
    unfold getCellD
    rw [idxOf_append_of_mem t.cols [c] c2 hmem]
    refine getD_append_left _ _ _ _ ?_
    rw [hrowlen]
    exact findIdx_lt_length_of_mem t.cols c2 hmem

/-! ### Pipeline-level structural facts -/

theorem remove_footer_cols (t : Table) :
    (remove_footer_and_blank_rows t).cols = t.cols := rfl

theorem remove_footer_rows_sublist (t : Table) :
    (remove_footer_and_blank_rows t).rows.Sublist t.rows :=
  (List.filter_sublist _).trans (List.filter_sublist t.rows)

theorem remove_footer_WF (t : Table) (h : t.WF) :
    (remove_footer_and_blank_rows t).WF := by
  intro r hr
  exact h r ((remove_footer_rows_sublist t).subset hr)

theorem apply_schema_types_WF (t : Table) (h : t.WF) :
    (apply_schema_types t).WF := by
  rw [apply_schema_types_eq]
  intro r hr
  obtain ⟨r0, hr0, rfl⟩ := List.mem_map.1 hr
  exact rowAux_length SCHEMA _ r0 (by rw [h r0 hr0]; simp)

theorem normTab_WF (t : Table) (h : t.WF) : (normTab t).WF :=
  apply_schema_types_WF _ (remove_footer_WF t h)

theorem mem_cols_apply_schema (t : Table) (e : String × String)
    (he : e ∈ SCHEMA) : e.1 ∈ (apply_schema_types t).cols := by
  rw [apply_schema_types_eq]
  exact mem_colsAux_entry SCHEMA _ e he

theorem keysOf_length (t : Table) :
    (keysOf t).length = (normTab t).rows.length := List.length_map _ _

theorem withKeyCols_rows_length (t : Table) :
    (withKeyCols t).rows.length = (normTab t).rows.length := by
  unfold withKeyCols
  rw [setCol_rows_length, setCol_rows_length]
  · rw [List.length_map, keysOf_length]
  · rw [List.length_map, ranks_length, keysOf_length,
      setCol_rows_length]
    rw [List.length_map, keysOf_length]

theorem withKeyCols_WF (t : Table) (hWF : t.WF) : (withKeyCols t).WF := by
  unfold withKeyCols
  refine setCol_WF _ _ _ ?_ ?_
  · refine setCol_WF _ _ _ (normTab_WF t hWF) ?_
    rw [List.length_map, keysOf_length]
  · rw [List.length_map, ranks_length, keysOf_length, setCol_rows_length]
    rw [List.length_map, keysOf_length]

/-- The `COMBINED` cell of row `i` holds the row's key. -/
theorem withKeyCols_read_key (t : Table) (hWF : t.WF) (i : Nat)
    (hi : i < (withKeyCols t).rows.length) :
    cellToStr (getCellD (withKeyCols t).cols
        ((withKeyCols t).rows.getD i []) "COMBINED") =
      (keysOf t).getD i "" := by
  have hN : (normTab t).WF := normTab_WF t hWF
  have hklen : ((keysOf t).map Cell.str).length = (normTab t).rows.length := by
    rw [List.length_map, keysOf_length]
  have ht3len : ((normTab t).setCol "COMBINED" ((keysOf t).map Cell.str)).rows.length =
      (normTab t).rows.length := setCol_rows_length _ _ _ hklen
  have hrlen : ((ranks (keysOf t)).map Cell.num).length =
      ((normTab t).setCol "COMBINED" ((keysOf t).map Cell.str)).rows.length := by
    rw [List.length_map, ranks_length, keysOf_length, ht3len]
  have hi' : i < (normTab t).rows.length := by
    rw [withKeyCols_rows_length] at hi; exact hi
  have ht3WF : ((normTab t).setCol "COMBINED" ((keysOf t).map Cell.str)).WF :=
    setCol_WF _ _ _ hN hklen
  unfold withKeyCols
  rw [setCol_read_other _ "duplicat" "COMBINED" _ ht3WF hrlen
      (by decide) (setCol_cols_mem _ _ _) i (by rw [ht3len]; exact hi')]
  rw [setCol_read_new _ "COMBINED" _ hN hklen i hi']
  rw [getD_irrel _ i Cell.na (Cell.str "") (by rw [hklen]; exact hi')]
  rw [getD_map Cell.str (keysOf t) i "" (by rw [keysOf_length]; exact hi')]
  rfl

theorem mem_cols_normTab (t : Table) (e : String × String) (he : e ∈ SCHEMA) :
    e.1 ∈ (normTab t).cols :=
  mem_cols_apply_schema _ e he

/-- Any schema column distinct from the bookkeeping pair reads through the
two `setCol`s unchanged. -/
theorem withKeyCols_read_keycol (t : Table) (hWF : t.WF) (c : String)
    (hcmem : c ∈ (normTab t).cols) (hc1 : c ≠ "COMBINED") (hc2 : c ≠ "duplicat")
    (i : Nat) (hi : i < (normTab t).rows.length) :
    getCellD (withKeyCols t).cols ((withKeyCols t).rows.getD i []) c =
      getCellD (normTab t).cols ((normTab t).rows.getD i []) c := by
  have hN : (normTab t).WF := normTab_WF t hWF
  have hklen : ((keysOf t).map Cell.str).length = (normTab t).rows.length := by
    rw [List.length_map, keysOf_length]
  have ht3len : ((normTab t).setCol "COMBINED" ((keysOf t).map Cell.str)).rows.length =
      (normTab t).rows.length := setCol_rows_length _ _ _ hklen
  have hrlen : ((ranks (keysOf t)).map Cell.num).length =
      ((normTab t).setCol "COMBINED" ((keysOf t).map Cell.str)).rows.length := by
    rw [List.length_map, ranks_length, keysOf_length, ht3len]
  have ht3WF : ((normTab t).setCol "COMBINED" ((keysOf t).map Cell.str)).WF :=
    setCol_WF _ _ _ hN hklen
  unfold withKeyCols
  rw [setCol_read_other _ "duplicat" c _ ht3WF hrlen hc2
      (setCol_cols_of_mem _ _ _ _ hcmem) i (by rw [ht3len]; exact hi)]
  rw [setCol_read_other _ "COMBINED" c _ hN hklen hc1 hcmem i hi]

theorem keysOf_getD (t : Table) (i : Nat) (hi : i < (normTab t).rows.length) :
    (keysOf t).getD i "" =
      buildKey (normTab t).cols ((normTab t).rows.getD i []) := by
  unfold keysOf
  rw [getD_irrel _ i "" (buildKey (normTab t).cols [])
    (by rw [List.length_map]; exact hi)]
  rw [getD_map (buildKey (normTab t).cols) _ i [] hi]

/-- Rebuilding the key from the final table's cells returns the recorded
key. -/
theorem withKeyCols_buildKey (t : Table) (hWF : t.WF) (i : Nat)
    (hi : i < (withKeyCols t).rows.length) :
    buildKey (withKeyCols t).cols ((withKeyCols t).rows.getD i []) =
      (keysOf t).getD i "" := by
  have hi' : i < (normTab t).rows.length := by
    rw [withKeyCols_rows_length] at hi; exact hi
  have hcell : ∀ c, c ∈ (normTab t).cols → c ≠ "COMBINED" → c ≠ "duplicat" →
      getCellD (withKeyCols t).cols ((withKeyCols t).rows.getD i []) c =
        getCellD (normTab t).cols ((normTab t).rows.getD i []) c :=
    fun c h1 h2 h3 => withKeyCols_read_keycol t hWF c h1 h2 h3 i hi'
  rw [keysOf_getD t i hi']
  unfold buildKey
  rw [hcell "HOUSE VISIT TYPE"
      (mem_cols_normTab t ("HOUSE VISIT TYPE", "string") (by decide))
      (by decide) (by decide),
    hcell "CHILD ID" (mem_cols_normTab t ("CHILD ID", "string") (by decide))
      (by decide) (by decide),
    hcell "HOUSE VISIT DATE"
      (mem_cols_normTab t ("HOUSE VISIT DATE", "date") (by decide))
      (by decide) (by decide),
    hcell "GROUP ID" (mem_cols_normTab t ("GROUP ID", "string") (by decide))
      (by decide) (by decide),
    hcell "REMARKS" (mem_cols_normTab t ("REMARKS", "string") (by decide))
      (by decide) (by decide),
    hcell "HouseVisitID" (mem_cols_normTab t ("HouseVisitID", "string") (by decide))
      (by decide) (by decide),
    hcell "TMO Name" (mem_cols_normTab t ("TMO Name", "string") (by decide))
      (by decide) (by decide),
    hcell "YM Name" (mem_cols_normTab t ("YM Name", "string") (by decide))
      (by decide) (by decide)]

theorem dedupedT_rows_def (t : Table) :
    (dedupedT t).rows =
      (((withKeyCols t).rows.zip (ranks (keysOf t))).filter
        (fun p => p.2 = 0)).map Prod.fst := by
  unfold dedupedT
  dsimp only

theorem removedT_rows_def (t : Table) :
    (removedT t).rows =
      (((withKeyCols t).rows.zip (ranks (keysOf t))).filter
        (fun p => 0 < p.2)).map Prod.fst := by
  unfold removedT
  dsimp only

theorem statsOf_def (t : Table) :
    (statsOf t).rows_before = (withKeyCols t).rows.length ∧
      (statsOf t).rows_after = (dedupedT t).rows.length ∧
      (statsOf t).removed = (removedT t).rows.length := by
  unfold statsOf
  exact ⟨by dsimp only, by dsimp only, by dsimp only⟩

theorem dedupedT_buildKeys (t : Table) (hWF : t.WF) :
    (dedupedT t).rows.map (buildKey (withKeyCols t).cols) =
      keptKeys [] (keysOf t) := by
  rw [dedupedT_rows_def, List.map_map]
  exact filter_zip_ranks (buildKey (withKeyCols t).cols) (keysOf t)
    (withKeyCols t).rows []
    (by rw [withKeyCols_rows_length, keysOf_length])
    (fun i hi => withKeyCols_buildKey t hWF i hi)

theorem dedupedT_cols_def (t : Table) :
    (dedupedT t).cols = (withKeyCols t).cols := by
  unfold dedupedT
  dsimp only

theorem removedT_cols_def (t : Table) :
    (removedT t).cols = (withKeyCols t).cols := by
  unfold removedT
  dsimp only

theorem dedupedT_tableKeys (t : Table) (hWF : t.WF) :
    tableKeys (dedupedT t) = keptKeys [] (keysOf t) := by
  unfold tableKeys
  rw [dedupedT_cols_def, dedupedT_rows_def, List.map_map]
  exact filter_zip_ranks
    (fun r => cellToStr (getCellD (withKeyCols t).cols r "COMBINED"))
    (keysOf t) (withKeyCols t).rows []
    (by rw [withKeyCols_rows_length, keysOf_length])
    (fun i hi => withKeyCols_read_key t hWF i hi)

theorem dedupedT_keys_nodup (t : Table) (hWF : t.WF) :
    (tableKeys (dedupedT t)).Nodup := by
  rw [dedupedT_tableKeys t hWF]
  exact keptKeys_nodup _ []

theorem keysOf_mem_dedupedT (t : Table) (hWF : t.WF) (k : String)
    (hk : k ∈ keysOf t) : k ∈ tableKeys (dedupedT t) := by
  rw [dedupedT_tableKeys t hWF]
  rcases keptKeys_complete (keysOf t) [] k hk with h | h
  · simp at h
  · exact h

theorem decide_pos_eq_not_zero (n : Nat) :
    (decide (0 < n)) = !(decide (n = 0)) := by
  cases n <;> simp

theorem stats_partition (t : Table) :
    (statsOf t).rows_before = (statsOf t).rows_after + (statsOf t).removed := by
  obtain ⟨h1, h2, h3⟩ := statsOf_def t
  rw [h1, h2, h3, dedupedT_rows_def, removedT_rows_def,
    List.length_map, List.length_map]
  have hcongr : (((withKeyCols t).rows.zip (ranks (keysOf t))).filter
        (fun p => 0 < p.2)) =
      (((withKeyCols t).rows.zip (ranks (keysOf t))).filter
        (fun p => !(decide (p.2 = 0)))) :=
    List.filter_congr (fun p _ => decide_pos_eq_not_zero p.2)
  rw [hcongr]
  have hlen := length_filter_pos_add
    ((withKeyCols t).rows.zip (ranks (keysOf t))) (fun p => decide (p.2 = 0))
  have hzlen : ((withKeyCols t).rows.zip (ranks (keysOf t))).length =
      (withKeyCols t).rows.length := by
    rw [List.length_zip, ranks_length, keysOf_length, withKeyCols_rows_length]
    omega
  omega

/-! ### Idempotence of the Schema Normalizer, and re-running the pipeline -/

/-- `apply_schema_types` applied twice equals once, provided the declared
date column is present in the input (after name trimming) and every cell is
stable under the string coercion. -/
theorem apply_schema_types_idem (t : Table) (hWF : t.WF)
    (hdatecol : "HOUSE VISIT DATE" ∈ t.cols.map pstrip)
    (hstab : ∀ r ∈ t.rows, ∀ x ∈ r, stableCell x) :
    apply_schema_types (apply_schema_types t) = apply_schema_types t := by
  have hschema_strip : ∀ e ∈ SCHEMA, pstrip e.1 = e.1 := by decide
  have hnd : (SCHEMA.map Prod.fst).Nodup := by decide
  have honlydate : ∀ e ∈ SCHEMA, e.2 = "date" → e.1 = "HOUSE VISIT DATE" := by
    decide
  have hstable0 : ∀ x ∈ t.cols.map pstrip, pstrip x = x := by
    intro x hx
    obtain ⟨y, _, rfl⟩ := List.mem_map.1 hx
    exact pstrip_idem y
  have hcolstable : ∀ x ∈ colsAux SCHEMA (t.cols.map pstrip), pstrip x = x :=
    colsAux_stable SCHEMA _ hstable0 hschema_strip
  have hA : (colsAux SCHEMA (t.cols.map pstrip)).map pstrip =
      colsAux SCHEMA (t.cols.map pstrip) :=
    map_eq_self_of_mem pstrip _ hcolstable
  have hB : colsAux SCHEMA (colsAux SCHEMA (t.cols.map pstrip)) =
      colsAux SCHEMA (t.cols.map pstrip) :=
    colsAux_all_mem SCHEMA _ (fun e he => mem_colsAux_entry SCHEMA _ e he)
  have hdate' : ∀ e ∈ SCHEMA, e.2 = "date" → e.1 ∈ t.cols.map pstrip := by
    intro e he hd
    rw [honlydate e he hd]
    exact hdatecol
  rw [apply_schema_types_eq t, apply_schema_types_eq]
  dsimp only
  rw [hA, hB, List.map_map, Table.mk.injEq]
  refine ⟨rfl, List.map_congr_left ?_⟩
  intro r hr
  show rowAux SCHEMA (colsAux SCHEMA (t.cols.map pstrip))
      (rowAux SCHEMA (t.cols.map pstrip) r) =
    rowAux SCHEMA (t.cols.map pstrip) r
  rw [rowAux_all_mem SCHEMA _ _ (fun e he => mem_colsAux_entry SCHEMA _ e he)]
  refine rowAux_double SCHEMA (t.cols.map pstrip) r hnd ?_ hdate' ?_
  · rw [hWF r hr, List.length_map]
  · intro i hi
    exact Or.inl (hstab r hr _ (getD_mem r i Cell.na hi))

/-- If the deduped output is a fixed point of the normalizer, re-sanitizing
and re-normalizing it only filters rows. -/
theorem normTab_dedupedT (t : Table)
    (hfix : apply_schema_types (dedupedT t) = dedupedT t) :
    normTab (dedupedT t) =
      ⟨(dedupedT t).cols,
       (remove_footer_and_blank_rows (dedupedT t)).rows⟩ := by
  have hrows := congrArg Table.rows hfix
  have hcols := congrArg Table.cols hfix
  rw [apply_schema_types_eq] at hrows hcols
  dsimp only at hrows hcols
  have hF := of_map_eq_self _ _ hrows
  show apply_schema_types (remove_footer_and_blank_rows (dedupedT t)) = _
  rw [apply_schema_types_eq, remove_footer_cols, Table.mk.injEq]
  refine ⟨hcols, ?_⟩
  refine map_eq_self_of_mem _ _ ?_
  intro r hr
  exact hF r ((remove_footer_rows_sublist (dedupedT t)).subset hr)

theorem keysOf_dedupedT_sublist (t : Table) (hWF : t.WF)
    (hfix : apply_schema_types (dedupedT t) = dedupedT t) :
    (keysOf (dedupedT t)).Sublist (keptKeys [] (keysOf t)) := by
  unfold keysOf
  rw [normTab_dedupedT t hfix]
  dsimp only
  rw [dedupedT_cols_def]
  have hsub := (remove_footer_rows_sublist (dedupedT t)).map
    (buildKey (withKeyCols t).cols)
  rw [dedupedT_buildKeys t hWF] at hsub
  exact hsub

theorem keysOf_dedupedT_nodup (t : Table) (hWF : t.WF)
    (hfix : apply_schema_types (dedupedT t) = dedupedT t) :
    (keysOf (dedupedT t)).Nodup :=
  (keptKeys_nodup (keysOf t) []).sublist (keysOf_dedupedT_sublist t hWF hfix)

/-- Re-running the pipeline on the deduped partition removes nothing, as
long as that partition is a fixed point of the normalizer. -/
theorem rerun_removed_zero (t : Table) (hWF : t.WF)
    (hfix : apply_schema_types (dedupedT t) = dedupedT t) :
    (statsOf (dedupedT t)).removed = 0 := by
  obtain ⟨-, -, h3⟩ := statsOf_def (dedupedT t)
  rw [h3, removedT_rows_def, List.length_map]
  rw [List.length_eq_zero]
  refine List.filter_eq_nil_iff.2 ?_
  rintro ⟨a, b⟩ hp
  have hb : b ∈ ranks (keysOf (dedupedT t)) := (List.of_mem_zip hp).2
  have hzero : b = 0 :=
    ranks_all_zero (keysOf (dedupedT t)) []
      (keysOf_dedupedT_nodup t hWF hfix)
      (fun x _ hx => List.not_mem_nil x hx) b hb
  simp [hzero]

/-! ### Remaining supporting lemmas -/

theorem ranks_zero_iff (ks : List String) (i : Nat) (hi : i < ks.length) :
    (ranks ks).getD i 1 = 0 ↔
      ∀ j, j < i → ks.getD j "" ≠ ks.getD i "" := by
  rw [show ranks ks = ranksAux [] ks from rfl, ranksAux_zero_iff ks [] i hi]
  simp

theorem ranks_dup_pos (ks : List String) (i j : Nat) (hij : i < j)
    (hj : j < ks.length) (heq : ks.getD i "" = ks.getD j "") :
    0 < (ranks ks).getD j 1 := by
  rcases Nat.eq_zero_or_pos ((ranks ks).getD j 1) with h0 | hpos
  · exact absurd heq ((ranks_zero_iff ks j hj).1 h0 i hij)
  · exact hpos

theorem dedupedT_rows_sublist (t : Table) :
    (dedupedT t).rows.Sublist (withKeyCols t).rows := by
  rw [dedupedT_rows_def]
  have h1 : (((withKeyCols t).rows.zip (ranks (keysOf t))).filter
      (fun p => p.2 = 0)).Sublist
      ((withKeyCols t).rows.zip (ranks (keysOf t))) :=
    List.filter_sublist _
  have h2 := h1.map Prod.fst
  rw [List.map_fst_zip _ _ (le_of_eq (by
    rw [ranks_length, keysOf_length, withKeyCols_rows_length]))] at h2
  exact h2

theorem removedT_rows_sublist (t : Table) :
    (removedT t).rows.Sublist (withKeyCols t).rows := by
  rw [removedT_rows_def]
  have h1 : (((withKeyCols t).rows.zip (ranks (keysOf t))).filter
      (fun p => 0 < p.2)).Sublist
      ((withKeyCols t).rows.zip (ranks (keysOf t))) :=
    List.filter_sublist _
  have h2 := h1.map Prod.fst
  rw [List.map_fst_zip _ _ (le_of_eq (by
    rw [ranks_length, keysOf_length, withKeyCols_rows_length]))] at h2
  exact h2


theorem buildKey_eq_specKey (cols : List String) (r : List Cell) :
    buildKey cols r = specKey cols r := by
  simp only [specKey, KEYCOLS, List.map_cons, List.map_nil, buildKey]
  simp [String.intercalate, String.intercalate.go, String.append_assoc]

theorem buildKey_congr (cols : List String) (r1 r2 : List Cell)
    (h : ∀ c ∈ KEYCOLS, getCellD cols r1 c = getCellD cols r2 c) :
    buildKey cols r1 = buildKey cols r2 := by
  unfold buildKey
  rw [h "HOUSE VISIT TYPE" (by decide), h "CHILD ID" (by decide),
    h "HOUSE VISIT DATE" (by decide), h "GROUP ID" (by decide),
    h "REMARKS" (by decide), h "HouseVisitID" (by decide),
    h "TMO Name" (by decide), h "YM Name" (by decide)]

theorem remove_footer_rows_eq (t : Table) :
    (remove_footer_and_blank_rows t).rows =
      t.rows.filter (fun r => ¬ r.all Cell.isNA ∧
        ¬ r.any (fun c => containsAppliedFilters (cellToStr c))) := by
  show (t.rows.filter (fun r => ¬ r.all Cell.isNA)).filter
      (fun r => ¬ r.any (fun c => containsAppliedFilters (cellToStr c))) = _
  rw [List.filter_filter]
  refine List.filter_congr ?_
  intro r _
  by_cases h1 : r.all Cell.isNA <;>
    by_cases h2 : r.any (fun c => containsAppliedFilters (cellToStr c)) <;>
      simp [h1, h2]

theorem remove_footer_all_blank (t : Table)
    (h : ∀ r ∈ t.rows, r.all Cell.isNA) :
    (remove_footer_and_blank_rows t).rows = [] := by
  rw [remove_footer_rows_eq]
  refine List.filter_eq_nil_iff.2 ?_
  intro r hr
  simp [h r hr]


/-! ### The claims -/

/-- C1: among rows with byte-identical composite keys, exactly one row — the
earliest in original order — lands in the deduped partition (its rank is 0
iff no earlier row shares its key; the deduped keys are distinct and cover
every key); every later same-key row has positive rank, and both partitions
are sublists of the processed table, preserving relative original order. -/
theorem claim_C1_first_occurrence_partition (t : Table) (hWF : t.WF) :
    (∀ i, i < (keysOf t).length →
      ((ranks (keysOf t)).getD i 1 = 0 ↔
        ∀ j, j < i → (keysOf t).getD j "" ≠ (keysOf t).getD i "")) ∧
    (tableKeys (dedupedT t)).Nodup ∧
    (∀ k ∈ keysOf t, k ∈ tableKeys (dedupedT t)) ∧
    (dedupedT t).rows.Sublist (withKeyCols t).rows ∧
    (removedT t).rows.Sublist (withKeyCols t).rows :=
  ⟨fun i hi => ranks_zero_iff (keysOf t) i hi,
   dedupedT_keys_nodup t hWF,
   fun k hk => keysOf_mem_dedupedT t hWF k hk,
   dedupedT_rows_sublist t,
   removedT_rows_sublist t⟩

/-- Closed instance of C1 at a concrete table. -/
theorem claim_C1_witness :
    tC8.WF ∧ (tableKeys (dedupedT tC8)).Nodup :=
  ⟨by decide, (claim_C1_first_occurrence_partition tC8 (by decide)).2.1⟩

/-- C2: for every input table, rows_before = rows_after + removed: the
rank-0 / rank-positive split is an exhaustive and exclusive partition of
the rows entering the resolver. -/
theorem claim_C2_stats_partition (t : Table) :
    (statsOf t).rows_before = (statsOf t).rows_after + (statsOf t).removed :=
  stats_partition t

/-- C3 counterexample: the output partitions do NOT exclude the internal
bookkeeping columns — both `COMBINED` and `duplicat` appear among the
deduped (and removed) output columns for a concrete input. -/
theorem claim_C3_counterexample :
    "COMBINED" ∈ (dedupedT tC3).cols ∧ "duplicat" ∈ (dedupedT tC3).cols ∧
      "COMBINED" ∈ (removedT tC3).cols ∧ "duplicat" ∈ (removedT tC3).cols := by
  decide

/-- C3 amended: the two output tables carry exactly the columns of the
internal keyed table — the full normalized schema plus pass-through input
columns plus the two bookkeeping columns `COMBINED` and `duplicat`, which
are never dropped before serialization. -/
theorem claim_C3_outputs_keep_bookkeeping (t : Table) :
    (dedupedT t).cols = (withKeyCols t).cols ∧
    (removedT t).cols = (withKeyCols t).cols ∧
    "COMBINED" ∈ (dedupedT t).cols ∧
    "duplicat" ∈ (dedupedT t).cols ∧
    (∀ e ∈ SCHEMA, e.1 ∈ (dedupedT t).cols) := by
  refine ⟨dedupedT_cols_def t, removedT_cols_def t, ?_, ?_, ?_⟩
  · rw [dedupedT_cols_def]
    exact setCol_cols_of_mem _ _ _ _ (setCol_cols_mem _ _ _)
  · rw [dedupedT_cols_def]
    exact setCol_cols_mem _ _ _
  · intro e he
    rw [dedupedT_cols_def]
    exact setCol_cols_of_mem _ _ _ _
      (setCol_cols_of_mem _ _ _ _ (mem_cols_normTab t e he))

/-- Closed instance of the amended C3 at a concrete table and column. -/
theorem claim_C3_witness :
    ("Funder", "string") ∈ SCHEMA ∧ "Funder" ∈ (dedupedT tC3).cols :=
  ⟨by decide,
   (claim_C3_outputs_keep_bookkeeping tC3).2.2.2.2 ("Funder", "string")
     (by decide)⟩

/-- C4 counterexample: the Schema Normalizer is not idempotent.  On a table
holding the single cell "1.0.0" (and missing the date column), the second
application strips a further ".0" and re-coerces the synthesized date
column, so applying it twice differs from applying it once. -/
theorem claim_C4_counterexample :
    apply_schema_types (apply_schema_types tC4) ≠ apply_schema_types tC4 := by
  decide

/-- C4 amended: the Schema Normalizer is idempotent on every well-formed
table whose declared date column is present (after name trimming) and whose
cells are each stable under one more string normalization — equivalently,
no cell's normalized value still ends in ".0".  (The counterexample shows
both provisos are needed: a normalized "1.0.0" re-normalizes to "1", and a
synthesized date column of empty strings re-coerces to null dates.) -/
theorem claim_C4_normalizer_idempotent (t : Table) (hWF : t.WF)
    (hdatecol : "HOUSE VISIT DATE" ∈ t.cols.map pstrip)
    (hstab : ∀ r ∈ t.rows, ∀ x ∈ r, stableCell x) :
    apply_schema_types (apply_schema_types t) = apply_schema_types t :=
  apply_schema_types_idem t hWF hdatecol hstab

/-- Closed instance of the amended C4 at a concrete table. -/
theorem claim_C4_witness :
    tC4w.WF ∧ "HOUSE VISIT DATE" ∈ tC4w.cols.map pstrip ∧
      (∀ r ∈ tC4w.rows, ∀ x ∈ r, stableCell x) ∧
      apply_schema_types (apply_schema_types tC4w) = apply_schema_types tC4w :=
  ⟨by decide, by decide, by decide,
   claim_C4_normalizer_idempotent tC4w (by decide) (by decide) (by decide)⟩

/-- C5 counterexample: re-running the pipeline on the deduped partition is
not removal-free.  With CHILD ID cells "1.0.0" and "1.0", the first run
normalizes them apart (to "1.0" and "1") and keeps both; the second run
normalizes both to "1", and one row is removed. -/
theorem claim_C5_counterexample :
    (statsOf (dedupedT tC5)).removed = 1 ∧
      ¬ (statsOf (dedupedT tC5)).removed = 0 := by
  decide

/-- C5 amended: the composite keys recorded in the deduped partition are
always pairwise distinct; and re-running the pipeline on the deduped
partition yields zero removals whenever that partition is a fixed point of
the Schema Normalizer (which the counterexample's ".0"-ending normalized
key value violates). -/
theorem claim_C5_rerun_removes_nothing (t : Table) (hWF : t.WF)
    (hfix : apply_schema_types (dedupedT t) = dedupedT t) :
    (tableKeys (dedupedT t)).Nodup ∧ (statsOf (dedupedT t)).removed = 0 :=
  ⟨dedupedT_keys_nodup t hWF, rerun_removed_zero t hWF hfix⟩

/-- Closed instance of the amended C5 at a concrete table. -/
theorem claim_C5_witness :
    tC5w.WF ∧ apply_schema_types (dedupedT tC5w) = dedupedT tC5w ∧
      (statsOf (dedupedT tC5w)).removed = 0 := by
  refine ⟨by decide, by decide, ?_⟩
  exact (claim_C5_rerun_removes_nothing tC5w (by decide) (by decide)).2

/-- C6: the composite key of a row is exactly the " | "-join of the string
forms of the eight key columns in the required order (`buildKey` coincides
with the spec-worded `specKey`); rows agreeing on all eight key cells get
byte-identical keys; and key equality alone drives the resolver: of two
rows with equal keys, the later one always has positive rank. -/
theorem claim_C6_composite_key (t0 : Table) :
    (∀ cols r, buildKey cols r = specKey cols r) ∧
    (∀ cols r1 r2,
      (∀ c ∈ KEYCOLS, getCellD cols r1 c = getCellD cols r2 c) →
        buildKey cols r1 = buildKey cols r2) ∧
    (∀ i j, i < j → j < (keysOf t0).length →
      (keysOf t0).getD i "" = (keysOf t0).getD j "" →
        0 < (ranks (keysOf t0)).getD j 1) :=
  ⟨fun cols r => buildKey_eq_specKey cols r,
   fun cols r1 r2 h => buildKey_congr cols r1 r2 h,
   fun i j hij hj heq => ranks_dup_pos (keysOf t0) i j hij hj heq⟩

/-- Closed instance of C6: equal key cells give equal keys, and the later
of two key-equal rows is ranked positive. -/
theorem claim_C6_witness :
    buildKey tC6w.cols [Cell.str "5", Cell.str "ann"] =
        buildKey tC6w.cols [Cell.str "5", Cell.str "bob"] ∧
      0 < (ranks (keysOf tC6w)).getD 1 1 :=
  ⟨(claim_C6_composite_key tC6w).2.1 tC6w.cols
      [Cell.str "5", Cell.str "ann"] [Cell.str "5", Cell.str "bob"]
      (by decide),
   (claim_C6_composite_key tC6w).2.2 0 1 (by decide) (by decide) (by decide)⟩

/-- C7: the Row Sanitizer keeps the columns, drops exactly the rows that
are entirely missing or whose string form contains "Applied filters"
case-insensitively, preserves the relative order of survivors (a sublist,
re-indexed positionally), and maps an all-blank table to an empty one —
it is a total function and never raises. -/
theorem claim_C7_row_sanitizer (t : Table) :
    (remove_footer_and_blank_rows t).cols = t.cols ∧
    (remove_footer_and_blank_rows t).rows =
      t.rows.filter (fun r => ¬ r.all Cell.isNA ∧
        ¬ r.any (fun c => containsAppliedFilters (cellToStr c))) ∧
    (remove_footer_and_blank_rows t).rows.Sublist t.rows ∧
    ((∀ r ∈ t.rows, r.all Cell.isNA) →
      (remove_footer_and_blank_rows t).rows = []) :=
  ⟨remove_footer_cols t, remove_footer_rows_eq t,
   remove_footer_rows_sublist t,
   fun h => remove_footer_all_blank t h⟩

/-- Closed instance of C7: a fully blank table sanitizes to no rows. -/
theorem claim_C7_witness :
    (∀ r ∈ tC7w.rows, r.all Cell.isNA) ∧
      (remove_footer_and_blank_rows tC7w).rows = [] :=
  ⟨by decide, (claim_C7_row_sanitizer tC7w).2.2.2 (by decide)⟩

/-- C8: string normalization strips one trailing ".0" after whitespace
collapsing — "12345.0" normalizes to "12345" — so two rows differing only
in that formatting get byte-identical composite keys and the later one is
removed as a duplicate. -/
theorem claim_C8_dotzero_strip :
    normStr "12345.0" = "12345" ∧
    normStrCell (Cell.str "12345.0") = normStrCell (Cell.str "12345") ∧
    (keysOf tC8).getD 0 "x" = (keysOf tC8).getD 1 "y" ∧
    (statsOf tC8).removed = 1 := by
  refine ⟨?_, ?_, ?_, ?_⟩ <;> decide

/-- C9: date coercion is total and day-first: "31/01/2024" parses to
January 31 2024 (not March 1); every cell coerces to either a calendar
date or the null-date marker, never an error; unparseable text and missing
values coerce to the null marker. -/
theorem claim_C9_dayfirst_total :
    normDateCell (Cell.str "31/01/2024") = Cell.date ⟨2024, 1, 31⟩ ∧
    (∀ c, (∃ d, normDateCell c = Cell.date d) ∨
      normDateCell c = Cell.nullDate) ∧
    normDateCell (Cell.str "not a date") = Cell.nullDate ∧
    normDateCell Cell.na = Cell.nullDate := by
  refine ⟨by decide, ?_, by decide, rfl⟩
  intro c
  cases c with
  | str s =>
    rcases h : parseDateDayFirst s with _ | d
    · right
      simp [normDateCell, h]
    · left
      exact ⟨d, by simp [normDateCell, h]⟩
  | date d => exact Or.inl ⟨d, rfl⟩
  | nullDate => exact Or.inr rfl
  | na => exact Or.inr rfl
  | num n => exact Or.inr rfl

/-- C10: a missing cell in a declared string column normalizes to the
literal string "nan" (pandas `astype(str)` of NaN), not the empty string,
and therefore contributes the segment "nan" to its row's composite key. -/
theorem claim_C10_nan_segment :
    normStrCell Cell.na = Cell.str "nan" ∧
    cellToStr (normStrCell Cell.na) = "nan" ∧
    keysOf tC10 = [" | nan |  |  | x |  |  | "] := by
  refine ⟨?_, ?_, ?_⟩ <;> decide
